import Mathlib

/-!
Verification of the algorithmic core of `pybumpchart`.

The repository's genuinely algorithmic code splits into two components:

* LabelLayout (`src/pybumpchart/labels.py`, `detect_label_collisions`):
  greedy vertical label-collision resolution.
* RankEngine (`src/pybumpchart/data.py`, `calculate_ranks` / `prepare_data` /
  `_validate_ranks`): derivation of per-time-period ranks from raw values,
  delegated in the source to pandas'
  `groupby(time_col)[value_col].rank(method, ascending, na_option="bottom")`.

The Python floats occurring as positions, values and ranks are embedded as
rationals (`ℚ`); `NaN` value cells are embedded as `Option.none`.
Python's stable `sorted` is embedded as `List.insertionSort`, which is a
stable sort for the given relation.
-/

namespace PyBumpChart

/-- Error taxonomy of the spec (`InvalidInput` / `DuplicateKey`).  The Python
code raises `ValueError` / `TypeError` with a message; the spec classifies the
duplicate-key message as `DuplicateKey` and the rest as `InvalidInput`. -/
inductive ChartError
  | invalidInput (msg : String)
  | duplicateKey (msg : String)
deriving DecidableEq

/-! ## LabelLayout: `detect_label_collisions` (labels.py, lines 150-188) -/

/-- The comparison used by `sorted(labels, key=lambda x: x[1])`:
compare `(label_text, y_position)` pairs by their `y` position only. -/
def posLe (a b : String × ℚ) : Prop := a.2 ≤ b.2

instance : DecidableRel posLe := fun a b => inferInstanceAs (Decidable (a.2 ≤ b.2))

instance : IsTotal (String × ℚ) posLe := ⟨fun a b => le_total a.2 b.2⟩

instance : IsTrans (String × ℚ) posLe := ⟨fun _ _ _ => le_trans⟩

/-- The greedy adjustment loop of `detect_label_collisions` (lines 175-186):
`prev` is the `y` of the previously appended (already adjusted) pair; a pair
closer than `min_distance` to it is pushed down to `prev + min_distance`,
otherwise it keeps its original position. -/
def adjustFrom (d : ℚ) : ℚ → List (String × ℚ) → List (String × ℚ)
  | _, [] => []
  | prev, (t, y) :: rest =>
    if y - prev < d then (t, prev + d) :: adjustFrom d (prev + d) rest
    else (t, y) :: adjustFrom d y rest

/-- `detect_label_collisions(labels, min_distance)` (labels.py 150-188):
inputs of length at most one are returned unchanged; otherwise the pairs are
stably sorted by `y` position, the first pair is kept as-is and the rest run
through the greedy adjustment.  The Python body contains no validation and no
`raise` statement. -/
def detect_label_collisions (labels : List (String × ℚ)) (min_distance : ℚ) :
    List (String × ℚ) :=
  if labels.length ≤ 1 then labels
  else
    match labels.insertionSort posLe with
    | [] => []
    | (t, y) :: rest => (t, y) :: adjustFrom min_distance y rest

/-- Exception-capable signature of `detect_label_collisions`, mirroring that a
Python call can in principle raise.  The body of the source function contains
no `raise` and calls no raising helper, so every call returns normally. -/
def detect_label_collisionsE (labels : List (String × ℚ)) (min_distance : ℚ) :
    Except ChartError (List (String × ℚ)) :=
  .ok (detect_label_collisions labels min_distance)

theorem adjustFrom_length (d : ℚ) :
    ∀ (prev : ℚ) (l : List (String × ℚ)), (adjustFrom d prev l).length = l.length := by
  intro prev l
  induction l generalizing prev with
  | nil => rfl
  | cons p rest ih =>
    obtain ⟨t, y⟩ := p
    by_cases h : y - prev < d <;> simp [adjustFrom, h, ih]

theorem adjustFrom_map_fst (d : ℚ) :
    ∀ (prev : ℚ) (l : List (String × ℚ)),
      (adjustFrom d prev l).map Prod.fst = l.map Prod.fst := by
  intro prev l
  induction l generalizing prev with
  | nil => rfl
  | cons p rest ih =>
    obtain ⟨t, y⟩ := p
    by_cases h : y - prev < d <;> simp [adjustFrom, h, ih]

/-- Every output step of the greedy pass keeps a gap of at least `d` to its
predecessor: a pushed label lands exactly `d` below, an unpushed one was
already at least `d` below.  No hypothesis on `d` or on sortedness needed. -/
theorem adjustFrom_chain (d : ℚ) :
    ∀ (prev : ℚ) (t0 : String) (l : List (String × ℚ)),
      List.Chain (fun a b : String × ℚ => a.2 + d ≤ b.2) (t0, prev)
        (adjustFrom d prev l) := by
  intro prev t0 l
  induction l generalizing prev t0 with
  | nil => exact List.Chain.nil
  | cons p rest ih =>
    obtain ⟨t, y⟩ := p
    by_cases h : y - prev < d
    · simp only [adjustFrom, if_pos h]
      exact List.chain_cons.mpr ⟨show prev + d ≤ prev + d from le_refl _, ih (prev + d) t⟩
    · simp only [adjustFrom, if_neg h]
      exact List.chain_cons.mpr ⟨show prev + d ≤ y by linarith [not_lt.mp h], ih y t⟩

/-- A list that already satisfies the separation chain from `prev` is a fixed
point of the greedy pass. -/
theorem adjustFrom_eq_self (d : ℚ) :
    ∀ (prev : ℚ) (t0 : String) (l : List (String × ℚ)),
      List.Chain (fun a b : String × ℚ => a.2 + d ≤ b.2) (t0, prev) l →
      adjustFrom d prev l = l := by
  intro prev t0 l h
  induction l generalizing prev t0 with
  | nil => rfl
  | cons p rest ih =>
    obtain ⟨t, y⟩ := p
    rw [List.chain_cons] at h
    have hy : ¬ y - prev < d := by have := h.1; simp at this; linarith
    simp [adjustFrom, hy, ih y t h.2]

/-- With a non-positive `min_distance` the greedy pass never pushes a label of
an ascending-sorted list: every gap is already `≥ 0 ≥ d`. -/
theorem adjustFrom_of_nonpos {d : ℚ} (hd : d ≤ 0) :
    ∀ (prev : ℚ) (t0 : String) (l : List (String × ℚ)),
      List.Chain posLe (t0, prev) l → adjustFrom d prev l = l := by
  intro prev t0 l h
  refine adjustFrom_eq_self d prev t0 l ?_
  have mono : ∀ a b : String × ℚ, posLe a b → a.2 + d ≤ b.2 := by
    intro a b hab
    have : a.2 ≤ b.2 := hab
    linarith
  exact List.Chain.imp mono h

theorem detect_label_collisions_length (labels : List (String × ℚ)) (d : ℚ) :
    (detect_label_collisions labels d).length = labels.length := by
  unfold detect_label_collisions
  split
  · rfl
  · have hlen : (labels.insertionSort posLe).length = labels.length :=
      List.length_insertionSort posLe labels
    split
    · rename_i heq
      rw [heq] at hlen
      exact hlen
    · rename_i t y rest heq
      rw [heq] at hlen
      simpa [adjustFrom_length] using hlen

/-- For a non-positive `min_distance` the function degenerates to the stable
sort by position (inputs of length `≤ 1` are returned unchanged, which
coincides with their sort). -/
theorem detect_label_collisions_of_nonpos {d : ℚ} (hd : d ≤ 0)
    (labels : List (String × ℚ)) :
    detect_label_collisions labels d = labels.insertionSort posLe := by
  unfold detect_label_collisions
  split
  · rename_i hle
    match labels, hle with
    | [], _ => rfl
    | [x], _ => simp [List.insertionSort, List.orderedInsert]
    | x :: y :: rest, hle => simp at hle
  · rename_i hgt
    have hsorted := List.sorted_insertionSort posLe labels
    split
    · rename_i heq
      exact heq.symm
    · rename_i t y rest heq
      rw [heq] at hsorted
      have hchain : List.Chain posLe (t, y) rest := by
        have := (List.chain'_iff_pairwise (R := posLe)).mpr hsorted
        simpa [List.Chain'] using this
      rw [adjustFrom_of_nonpos hd y t rest hchain, heq]

/-- The output of `detect_label_collisions` satisfies the separation chain:
consecutive output entries are at least `min_distance` apart (for non-positive
`min_distance` via the already sorted gaps). -/
theorem detect_label_collisions_chain (labels : List (String × ℚ)) (d : ℚ) :
    List.Chain' (fun a b : String × ℚ => a.2 + d ≤ b.2)
      (detect_label_collisions labels d) := by
  rcases le_or_lt d 0 with hd | hd
  · rw [detect_label_collisions_of_nonpos hd]
    have hsorted := List.sorted_insertionSort posLe labels
    have hchain' : List.Chain' posLe (labels.insertionSort posLe) :=
      (List.chain'_iff_pairwise (R := posLe)).mpr hsorted
    refine List.Chain'.imp ?_ hchain'
    intro a b hab
    have : a.2 ≤ b.2 := hab
    linarith
  · unfold detect_label_collisions
    split
    · rename_i hle
      match labels, hle with
      | [], _ => simp
      | [x], _ => simp
      | x :: y :: rest, hle => simp at hle
    · split
      · simp
      · rename_i t y rest heq
        simpa [List.Chain'] using adjustFrom_chain d y t rest

/-- The output of `detect_label_collisions` is sorted by (adjusted) position. -/
theorem detect_label_collisions_sorted (labels : List (String × ℚ)) (d : ℚ) :
    List.Sorted posLe (detect_label_collisions labels d) := by
  rcases le_or_lt d 0 with hd | hd
  · rw [detect_label_collisions_of_nonpos hd]
    exact List.sorted_insertionSort posLe labels
  · have hchain := detect_label_collisions_chain labels d
    have hchain' : List.Chain' posLe (detect_label_collisions labels d) := by
      refine List.Chain'.imp ?_ hchain
      intro a b hab
      show a.2 ≤ b.2
      linarith
    exact (List.chain'_iff_pairwise (R := posLe)).mp hchain'

/-- C1 (counterexample): contrary to the claim, `detect_label_collisions` does
not reject a negative `min_separation` with an `InvalidInput` error: at
`min_separation = -1` on a two-label input it returns normally (the sorted
input), raising nothing. -/
theorem C1_counterexample :
    detect_label_collisionsE [("A", (0 : ℚ)), ("B", 0)] (-1) =
      .ok [("A", (0 : ℚ)), ("B", 0)] := by
  unfold detect_label_collisionsE
  rw [detect_label_collisions_of_nonpos (by norm_num)]
  exact congrArg Except.ok (by decide)

/-- C1 (amended): `detect_label_collisions` performs no input validation and
has no failure semantics at all: every call, with any `min_separation`
(negative included), returns normally; for a negative `min_separation` the
greedy pass makes no adjustment and the result is the input stably sorted by
position. -/
theorem C1_no_error (labels : List (String × ℚ)) (d : ℚ) :
    (∃ out, detect_label_collisionsE labels d = .ok out)
      ∧ (d < 0 → detect_label_collisions labels d = labels.insertionSort posLe) :=
  ⟨⟨_, rfl⟩, fun hd => detect_label_collisions_of_nonpos (le_of_lt hd) labels⟩

theorem C1_no_error_witness :
    (∃ out, detect_label_collisionsE [("B", (2 : ℚ)), ("A", 1)] (-1) = .ok out)
      ∧ detect_label_collisions [("B", (2 : ℚ)), ("A", 1)] (-1) =
          ([("B", (2 : ℚ)), ("A", 1)]).insertionSort posLe :=
  ⟨(C1_no_error [("B", (2 : ℚ)), ("A", 1)] (-1)).1,
   (C1_no_error [("B", (2 : ℚ)), ("A", 1)] (-1)).2 (by norm_num)⟩

/-- C3 (confirmed): for every input list and every `min_separation ≥ 0`,
consecutive entries of the output of `detect_label_collisions` (in its output
order, which is ascending by position) have adjusted-position difference of at
least `min_separation`. -/
theorem C3_min_separation (labels : List (String × ℚ)) (d : ℚ) (hd : 0 ≤ d) :
    List.Chain' (fun a b : String × ℚ => a.2 + d ≤ b.2)
      (detect_label_collisions labels d) :=
  detect_label_collisions_chain labels d

theorem C3_min_separation_witness :
    (0 : ℚ) ≤ 1/2 ∧
      List.Chain' (fun a b : String × ℚ => a.2 + 1/2 ≤ b.2)
        (detect_label_collisions [("X", 1), ("Y", 11/10), ("Z", 23/20)] (1/2)) :=
  ⟨by norm_num, C3_min_separation [("X", 1), ("Y", 11/10), ("Z", 23/20)] (1/2) (by norm_num)⟩

/-- C4 (confirmed): for every non-empty input, the head of the output of
`detect_label_collisions` is an entry of the input whose original position is
minimal among all input positions — the minimum-position entry anchors the
layout and keeps its position unchanged. -/
theorem C4_anchor (labels : List (String × ℚ)) (d : ℚ) (h : labels ≠ []) :
    ∃ p : String × ℚ, (detect_label_collisions labels d).head? = some p ∧
      p ∈ labels ∧ ∀ q ∈ labels, p.2 ≤ q.2 := by
  unfold detect_label_collisions
  split
  · rename_i hle
    match labels, h with
    | [x], _ =>
      exact ⟨x, rfl, List.mem_singleton_self x, by intro q hq; rw [List.mem_singleton.mp hq]⟩
    | x :: y :: rest, _ => simp at hle
  · rename_i hgt
    have hsorted := List.sorted_insertionSort posLe labels
    split
    · rename_i heq
      have hl := List.length_insertionSort posLe labels
      rw [heq] at hl
      simp at hl
      omega
    · rename_i t y rest heq
      refine ⟨(t, y), rfl, ?_, ?_⟩
      · have : (t, y) ∈ labels.insertionSort posLe := by
          rw [heq]; exact List.mem_cons_self _ _
        exact (List.mem_insertionSort posLe).mp this
      · intro q hq
        have hq' : q ∈ labels.insertionSort posLe := (List.mem_insertionSort posLe).mpr hq
        rw [heq] at hq' hsorted
        rcases List.mem_cons.mp hq' with rfl | hq''
        · exact le_refl _
        · exact List.rel_of_sorted_cons hsorted q hq''

theorem C4_anchor_witness :
    ∃ p : String × ℚ,
      (detect_label_collisions [("B", (2 : ℚ)), ("A", 1)] (1/2)).head? = some p ∧
        p ∈ [("B", (2 : ℚ)), ("A", 1)] ∧ ∀ q ∈ [("B", (2 : ℚ)), ("A", 1)], p.2 ≤ q.2 :=
  C4_anchor [("B", (2 : ℚ)), ("A", 1)] (1/2) (by simp)

/-- C5 (confirmed): `detect_label_collisions` is idempotent — applying it to
its own output with the same `min_separation` returns that output unchanged
(for every input and every `min_separation`, negative included). -/
theorem C5_idempotent (labels : List (String × ℚ)) (d : ℚ) :
    detect_label_collisions (detect_label_collisions labels d) d =
      detect_label_collisions labels d := by
  have hsorted := detect_label_collisions_sorted labels d
  have hchain := detect_label_collisions_chain labels d
  conv_lhs => rw [detect_label_collisions]
  split
  · rfl
  · rw [List.Sorted.insertionSort_eq hsorted]
    split
    · rename_i heq
      exact heq.symm
    · rename_i t y rest heq
      rw [heq] at hchain
      have : adjustFrom d y rest = rest := by
        refine adjustFrom_eq_self d y t rest ?_
        simpa [List.Chain'] using hchain
      rw [this, heq]

/-- C10 (confirmed): the output of `detect_label_collisions` has the same
length as the input and carries exactly the same multiset of label
identifiers; only positions change, no entry is dropped or duplicated. -/
theorem C10_same_labels (labels : List (String × ℚ)) (d : ℚ) :
    (detect_label_collisions labels d).length = labels.length ∧
      List.Perm ((detect_label_collisions labels d).map Prod.fst)
        (labels.map Prod.fst) := by
  refine ⟨detect_label_collisions_length labels d, ?_⟩
  unfold detect_label_collisions
  split
  · exact List.Perm.refl _
  · have hperm : List.Perm (labels.insertionSort posLe) labels :=
      List.perm_insertionSort posLe labels
    split
    · rename_i heq
      rw [heq] at hperm
      exact hperm.map Prod.fst
    · rename_i t y rest heq
      rw [heq] at hperm
      have : ((t, y) :: adjustFrom d y rest).map Prod.fst =
          ((t, y) :: rest).map Prod.fst := by
        simp [adjustFrom_map_fst]
      rw [this]
      exact hperm.map Prod.fst

/-! ## RankEngine: `calculate_ranks` / `prepare_data` (data.py)

`calculate_ranks` delegates to pandas'
`df.groupby(time_col)[value_col].rank(method=method, ascending=ascending,
na_option="bottom")`.  Its semantics, embedded here: rows are grouped by the
time column; within each group the rows are stably sorted by value (direction
given by `ascending`, rows with an absent (`NaN`) value ordered after all
present values and tied among themselves — `na_option="bottom"`), consecutive
tie runs receive ranks according to the tie method, and the resulting ranks
are scattered back to the original row positions. -/

/-- A tie-break method of `calculate_ranks` (the `TieMethod` literal type of
data.py). -/
inductive TieMethod
  | average
  | min
  | max
  | first
  | dense
deriving DecidableEq

/-- One observation row of the input table: a time key, an entity identifier
and a numeric value that may be absent (`NaN` is embedded as `none`). -/
structure Row where
  time : Int
  entity : String
  value : Option ℚ
deriving DecidableEq

/-- "Strictly better" on value cells: for present values, smaller is better
when ascending and larger when descending; a present value is better than an
absent one (`na_option="bottom"`), and an absent value is better than
nothing. -/
def valLt (asc : Bool) (x y : Option ℚ) : Bool :=
  match x, y with
  | some a, some b => if asc then decide (a < b) else decide (b < a)
  | some _, none => true
  | none, _ => false

/-- "Tied" on value cells: two present equal values tie, and absent values
tie with each other. -/
def valTie (x y : Option ℚ) : Bool :=
  match x, y with
  | some a, some b => decide (a = b)
  | none, none => true
  | some _, none => false
  | none, some _ => false

/-- The sorting key order (better-or-tied) used to sort a group before
assigning ranks. -/
def keyLe (asc : Bool) (x y : Option ℚ) : Bool :=
  match x, y with
  | some a, some b => if asc then decide (a ≤ b) else decide (b ≤ a)
  | some _, none => true
  | none, some _ => false
  | none, none => true

/-- `keyLe` lifted to index-tagged rows, the relation for the stable sort of a
group. -/
def rowLe (asc : Bool) (p q : Nat × Row) : Prop :=
  keyLe asc p.2.value q.2.value = true

instance (asc : Bool) : DecidableRel (rowLe asc) :=
  fun p q => inferInstanceAs (Decidable (_ = true))

theorem keyLe_eq_or (asc : Bool) (x y : Option ℚ) :
    keyLe asc x y = (valLt asc x y || valTie x y) := by
  cases x <;> cases y <;> cases asc <;>
    simp [keyLe, valLt, valTie, le_iff_lt_or_eq, eq_comm]

theorem keyLe_total (asc : Bool) (x y : Option ℚ) :
    keyLe asc x y = true ∨ keyLe asc y x = true := by
  cases x <;> cases y <;> cases asc <;> simp [keyLe] <;> exact le_total _ _

theorem keyLe_trans {asc : Bool} {x y z : Option ℚ} (h1 : keyLe asc x y = true)
    (h2 : keyLe asc y z = true) : keyLe asc x z = true := by
  cases x <;> cases y <;> cases z <;> cases asc <;>
    simp [keyLe] at * <;> first
  | exact le_trans h1 h2
  | exact le_trans h2 h1

instance (asc : Bool) : IsTotal (Nat × Row) (rowLe asc) :=
  ⟨fun p q => keyLe_total asc p.2.value q.2.value⟩

instance (asc : Bool) : IsTrans (Nat × Row) (rowLe asc) :=
  ⟨fun _ _ _ h1 h2 => keyLe_trans h1 h2⟩

theorem valTie_refl (x : Option ℚ) : valTie x x = true := by
  cases x <;> simp [valTie]

theorem valTie_symm (x y : Option ℚ) : valTie x y = valTie y x := by
  cases x <;> cases y <;> simp [valTie, eq_comm]

theorem valTie_trans {x y z : Option ℚ} (h1 : valTie x y = true)
    (h2 : valTie y z = true) : valTie x z = true := by
  cases x <;> cases y <;> cases z <;> simp [valTie] at * <;> exact h1.trans h2

theorem valLt_irrefl (asc : Bool) (x : Option ℚ) : valLt asc x x = false := by
  cases x <;> cases asc <;> simp [valLt]

theorem not_valLt_of_tie {asc : Bool} {x y : Option ℚ} (h : valTie x y = true) :
    valLt asc x y = false := by
  cases x <;> cases y <;> cases asc <;> simp [valLt, valTie] at * <;> simp [h]

theorem valLt_asymm {asc : Bool} {x y : Option ℚ} (h : valLt asc x y = true) :
    valLt asc y x = false := by
  cases x <;> cases y <;> cases asc <;> simp [valLt] at * <;> exact le_of_lt h

theorem valLt_of_keyLe_of_not_tie {asc : Bool} {x y : Option ℚ}
    (h1 : keyLe asc x y = true) (h2 : valTie x y = false) :
    valLt asc x y = true := by
  rw [keyLe_eq_or] at h1
  rcases Bool.or_eq_true_iff.mp h1 with h | h
  · exact h
  · rw [h] at h2; cases h2

theorem keyLe_of_valLt {asc : Bool} {x y : Option ℚ} (h : valLt asc x y = true) :
    keyLe asc x y = true := by
  rw [keyLe_eq_or, h, Bool.true_or]

theorem keyLe_of_tie {asc : Bool} {x y : Option ℚ} (h : valTie x y = true) :
    keyLe asc x y = true := by
  rw [keyLe_eq_or, h, Bool.or_true]

theorem valLt_congr_left {asc : Bool} {x x' : Option ℚ} (h : valTie x x' = true)
    (y : Option ℚ) : valLt asc x y = valLt asc x' y := by
  cases x <;> cases x' <;> cases y <;> cases asc <;>
    simp [valLt, valTie] at * <;> rw [h]

theorem valLt_congr_right {asc : Bool} {y y' : Option ℚ} (h : valTie y y' = true)
    (x : Option ℚ) : valLt asc x y = valLt asc x y' := by
  cases x <;> cases y <;> cases y' <;> cases asc <;>
    simp [valLt, valTie] at * <;> rw [h]

theorem valTie_congr_left {x x' : Option ℚ} (h : valTie x x' = true)
    (y : Option ℚ) : valTie x y = valTie x' y := by
  cases x <;> cases x' <;> cases y <;> simp [valTie] at * <;> rw [h]

/-- Tie classes are convex for the sort order: anything between two tied
cells ties with them. -/
theorem tie_convex {asc : Bool} {x y z : Option ℚ} (h1 : keyLe asc x y = true)
    (h2 : keyLe asc y z = true) (h3 : valTie x z = true) : valTie x y = true := by
  cases x <;> cases y <;> cases z <;> cases asc <;>
    simp [keyLe, valTie] at * <;> subst h3 <;> first
  | exact le_antisymm h1 h2
  | exact le_antisymm h2 h1

theorem valLt_none_right (asc : Bool) (x : Option ℚ) :
    valLt asc x none = x.isSome := by
  cases x <;> simp [valLt]

theorem valTie_none_right (x : Option ℚ) : valTie x none = x.isNone := by
  cases x <;> simp [valTie]

/-- The group of a time key: the index-tagged rows whose time equals `t`, in
original input order (pandas `groupby(time_col)`). -/
def groupOf (rows : List Row) (t : Int) : List (Nat × Row) :=
  rows.enum.filter (fun p => decide (p.2.time = t))

/-- Number of group members strictly better than value `v`. -/
def cntBetter (asc : Bool) (g : List (Nat × Row)) (v : Option ℚ) : Nat :=
  g.countP (fun p => valLt asc p.2.value v)

/-- Number of group members tied with value `v` (a member is tied with its own
value, so for a member this count is at least 1). -/
def cntTie (g : List (Nat × Row)) (v : Option ℚ) : Nat :=
  g.countP (fun p => valTie p.2.value v)

/-- Number of group members tied with `v` that appear before original index
`i`. -/
def cntTieBefore (g : List (Nat × Row)) (v : Option ℚ) (i : Nat) : Nat :=
  g.countP (fun p => valTie p.2.value v && decide (p.1 < i))

/-- Number of distinct values among the group members strictly better than
`v`. -/
def cntDenseBetter (asc : Bool) (g : List (Nat × Row)) (v : Option ℚ) : Nat :=
  (((g.filter (fun p => valLt asc p.2.value v)).map (fun p => p.2.value)).dedup).length

/-- Order-free characterisation of the pandas rank of the group member with
original index `i` and value `v` inside group `g`:
competition counting for `min`/`max`/`average`/`first` and distinct-class
counting for `dense`. -/
def rankOf (asc : Bool) (m : TieMethod) (g : List (Nat × Row)) (i : Nat)
    (v : Option ℚ) : ℚ :=
  match m with
  | .min => (cntBetter asc g v : ℚ) + 1
  | .max => (cntBetter asc g v : ℚ) + cntTie g v
  | .average =>
      (((cntBetter asc g v : ℚ) + 1) + ((cntBetter asc g v : ℚ) + cntTie g v)) / 2
  | .first => (cntBetter asc g v : ℚ) + cntTieBefore g v i + 1
  | .dense => (cntDenseBetter asc g v : ℚ) + 1

/-- Sequential competition ranks `c+1, c+2, ...` for the members of one tie
run in their (stable) sorted order — the `first` method. -/
def firstRanks (c : Nat) : List (Nat × Row) → List (Nat × ℚ)
  | [] => []
  | p :: ps => (p.1, (c : ℚ) + 1) :: firstRanks (c + 1) ps

/-- Ranks assigned to one run of tied rows: `c` members of the group precede
the run in sorted order, and the run is the `j`-th tie run (1-based). -/
def runRanks (m : TieMethod) (c j : Nat) (run : List (Nat × Row)) :
    List (Nat × ℚ) :=
  match m with
  | .min => run.map (fun p => (p.1, (c : ℚ) + 1))
  | .max => run.map (fun p => (p.1, (c : ℚ) + run.length))
  | .average =>
      run.map (fun p => (p.1, (((c : ℚ) + 1) + ((c : ℚ) + run.length)) / 2))
  | .first => firstRanks c run
  | .dense => run.map (fun p => (p.1, (j : ℚ)))

/-- Tie test against the value of a fixed row. -/
def tieWith (x : Nat × Row) : Nat × Row → Bool :=
  fun p => valTie p.2.value x.2.value

/-- The maximal run of rows tied with `x` at the front of `x :: xs`. -/
def runOf (x : Nat × Row) (xs : List (Nat × Row)) : List (Nat × Row) :=
  x :: xs.takeWhile (tieWith x)

/-- What remains of `x :: xs` after removing the front tie run of `x`. -/
def restOf (x : Nat × Row) (xs : List (Nat × Row)) : List (Nat × Row) :=
  xs.dropWhile (tieWith x)

/-- Walk the sorted group, peel off one maximal run of tied rows at a time and
assign its ranks; `c` counts the rows already peeled, `j` the runs already
peeled (1-based).  Structural recursion on an explicit fuel so that the
definition evaluates by kernel reduction. -/
def assignSortedF (m : TieMethod) : Nat → Nat → Nat → List (Nat × Row) →
    List (Nat × ℚ)
  | 0, _, _, _ => []
  | _ + 1, _, _, [] => []
  | fuel + 1, c, j, x :: xs =>
    runRanks m c j (runOf x xs) ++
      assignSortedF m fuel (c + (runOf x xs).length) (j + 1) (restOf x xs)

/-- Rank assignment for one group: stably sort the group by value under the
direction, then assign run ranks.  Produces `(original index, rank)` pairs. -/
def groupAssignments (asc : Bool) (m : TieMethod) (g : List (Nat × Row)) :
    List (Nat × ℚ) :=
  let sorted := g.insertionSort (rowLe asc)
  assignSortedF m sorted.length 0 1 sorted

/-- `calculate_ranks(df, time_col, value_col, ascending, method)`
(data.py 136-184): compute the per-group ranks and scatter them back to the
original row positions, producing one rank per input row, in input order. -/
def calculate_ranks (rows : List Row) (asc : Bool) (m : TieMethod) : List ℚ :=
  let assignments :=
    ((rows.map Row.time).dedup.map
      (fun t => groupAssignments asc m (groupOf rows t))).flatten
  (List.range rows.length).map (fun i => ((assignments.lookup i).getD 0))

/-- The rank formula produced for a member `(i, value v)` of the sorted suffix
`s`, when `c` rows and `j - 1` complete tie runs of the group precede `s`. -/
def localRank (asc : Bool) (m : TieMethod) (c j : Nat) (s : List (Nat × Row))
    (i : Nat) (v : Option ℚ) : ℚ :=
  match m with
  | .min => ((c + cntBetter asc s v : ℕ) : ℚ) + 1
  | .max => ((c + cntBetter asc s v : ℕ) : ℚ) + cntTie s v
  | .average =>
      ((((c + cntBetter asc s v : ℕ) : ℚ) + 1) +
        (((c + cntBetter asc s v : ℕ) : ℚ) + cntTie s v)) / 2
  | .first => ((c + cntBetter asc s v : ℕ) : ℚ) + cntTieBefore s v i + 1
  | .dense => ((j : ℚ)) + cntDenseBetter asc s v

theorem firstRanks_map_fst : ∀ (c : Nat) (ps : List (Nat × Row)),
    (firstRanks c ps).map Prod.fst = ps.map Prod.fst := by
  intro c ps
  induction ps generalizing c with
  | nil => rfl
  | cons p ps ih => simp [firstRanks, ih]

theorem runRanks_map_fst (m : TieMethod) (c j : Nat) (run : List (Nat × Row)) :
    (runRanks m c j run).map Prod.fst = run.map Prod.fst := by
  cases m <;> simp [runRanks, firstRanks_map_fst]

theorem length_dropWhile_le (p : Nat × Row → Bool) (l : List (Nat × Row)) :
    (l.dropWhile p).length ≤ l.length :=
  (List.dropWhile_sublist p).length_le

theorem assignSortedF_map_fst (m : TieMethod) :
    ∀ (fuel : Nat) (s : List (Nat × Row)) (c j : Nat), s.length ≤ fuel →
      (assignSortedF m fuel c j s).map Prod.fst = s.map Prod.fst := by
  intro fuel
  induction fuel with
  | zero =>
    intro s c j hs
    rw [Nat.le_zero, List.length_eq_zero] at hs
    subst hs
    rfl
  | succ fuel ih =>
    intro s c j hs
    match s with
    | [] => rfl
    | x :: xs =>
      have hrest : (restOf x xs).length ≤ fuel := by
        have := length_dropWhile_le (tieWith x) xs
        simp at hs
        simp only [restOf]
        omega
      simp only [assignSortedF, List.map_append, runRanks_map_fst, ih _ _ _ hrest]
      rw [← List.map_append, runOf, restOf, List.cons_append,
        List.takeWhile_append_dropWhile]

theorem lookup_eq_none_of_not_mem_fst {l : List (Nat × ℚ)} {i : Nat}
    (h : i ∉ l.map Prod.fst) : l.lookup i = none := by
  rw [List.lookup_eq_none_iff]
  intro p hp
  have : i ≠ p.1 := fun he => h (he ▸ List.mem_map_of_mem Prod.fst hp)
  exact bne_iff_ne.mpr this

theorem lookup_map_const {run : List (Nat × Row)} {i : Nat}
    (h : i ∈ run.map Prod.fst) (q : ℚ) :
    (run.map (fun p => (p.1, q))).lookup i = some q := by
  induction run with
  | nil => simp at h
  | cons p ps ih =>
    by_cases hi : i = p.1
    · subst hi
      simp [List.lookup_cons]
    · have hne : (i == p.1) = false := beq_eq_false_iff_ne.mpr hi
      simp only [List.map_cons, List.lookup_cons, hne]
      refine ih ?_
      simp only [List.map_cons, List.mem_cons] at h
      tauto

theorem firstRanks_lookup {run : List (Nat × Row)} {i : Nat} {r : Row}
    (hmem : (i, r) ∈ run) (hinc : run.Pairwise (fun p q => p.1 < q.1)) :
    ∀ c : Nat, (firstRanks c run).lookup i =
      some ((c : ℚ) + (run.countP (fun p => decide (p.1 < i))) + 1) := by
  induction run with
  | nil => simp at hmem
  | cons p ps ih =>
    intro c
    rw [List.pairwise_cons] at hinc
    by_cases hi : i = p.1
    · subst hi
      have h0 : ∀ q ∈ ps, ¬ (decide (q.1 < p.1) = true) := by
        intro q hq
        have := hinc.1 q hq
        simp
        omega
      have hcnt : (p :: ps).countP (fun q => decide (q.1 < p.1)) = 0 := by
        rw [List.countP_eq_zero]
        intro a ha
        rcases List.mem_cons.mp ha with rfl | ha
        · simp
        · exact h0 a ha
      rw [hcnt]
      simp [firstRanks, List.lookup_cons]
    · have hmem' : (i, r) ∈ ps := by
        rcases List.mem_cons.mp hmem with he | h
        · exact absurd (congrArg Prod.fst he) hi
        · exact h
      have hlt : p.1 < i := by
        have := hinc.1 (i, r) hmem'
        exact this
      have hcnt : (p :: ps).countP (fun q => decide (q.1 < i)) =
          ps.countP (fun q => decide (q.1 < i)) + 1 := by
        rw [List.countP_cons]
        simp [hlt, Nat.add_comm]
      rw [hcnt]
      have hne : (i == p.1) = false := beq_eq_false_iff_ne.mpr hi
      simp only [firstRanks, List.lookup_cons, hne]
      rw [ih hmem' hinc.2 (c + 1)]
      congr 1
      push_cast
      ring

theorem runOf_append_restOf (x : Nat × Row) (xs : List (Nat × Row)) :
    runOf x xs ++ restOf x xs = x :: xs := by
  rw [runOf, restOf, List.cons_append, List.takeWhile_append_dropWhile]

theorem run_all_tie {x : Nat × Row} {xs : List (Nat × Row)} :
    ∀ p ∈ runOf x xs, valTie p.2.value x.2.value = true := by
  intro p hp
  rcases List.mem_cons.mp hp with rfl | hp
  · exact valTie_refl _
  · have h := List.mem_takeWhile_imp (l := xs) (p := tieWith x) hp
    simpa [tieWith] using h

theorem rest_not_tie {asc : Bool} {x : Nat × Row} {xs : List (Nat × Row)}
    (hs : (x :: xs).Pairwise (rowLe asc)) :
    ∀ z ∈ restOf x xs, valTie z.2.value x.2.value = false := by
  intro z hz
  rw [restOf] at hz
  rcases List.pairwise_cons.mp hs with ⟨hx, hxs⟩
  cases hdrop : xs.dropWhile (tieWith x) with
  | nil => rw [hdrop] at hz; simp at hz
  | cons y ys =>
    rw [hdrop] at hz
    have hy : valTie y.2.value x.2.value = false := by
      have h := List.head?_dropWhile_not (tieWith x) xs
      rw [hdrop] at h
      simpa [tieWith] using h
    have hsubset : y :: ys ⊆ xs := by
      rw [← hdrop]
      exact (List.dropWhile_sublist (tieWith x)).subset
    rcases List.mem_cons.mp hz with rfl | hz'
    · exact hy
    · have hyxs : y ∈ xs := hsubset (List.mem_cons_self y ys)
      have hk1 : keyLe asc x.2.value y.2.value = true := hx y hyxs
      have hrest_pw : (y :: ys).Pairwise (rowLe asc) := by
        refine List.Pairwise.sublist ?_ hxs
        rw [← hdrop]
        exact List.dropWhile_sublist (tieWith x)
      have hk2 : keyLe asc y.2.value z.2.value = true :=
        (List.pairwise_cons.mp hrest_pw).1 z hz'
      by_contra hne
      rw [Bool.not_eq_false] at hne
      have hxz : valTie x.2.value z.2.value = true := by
        rw [valTie_symm]; exact hne
      have hxy : valTie x.2.value y.2.value = true := tie_convex hk1 hk2 hxz
      rw [valTie_symm] at hxy
      rw [hxy] at hy
      cases hy

theorem rest_better {asc : Bool} {x : Nat × Row} {xs : List (Nat × Row)}
    (hs : (x :: xs).Pairwise (rowLe asc)) :
    ∀ z ∈ restOf x xs, valLt asc x.2.value z.2.value = true := by
  intro z hz
  have hzxs : z ∈ xs := by
    have : restOf x xs ⊆ xs := (List.dropWhile_sublist (tieWith x)).subset
    exact this hz
  have hk : keyLe asc x.2.value z.2.value = true :=
    (List.pairwise_cons.mp hs).1 z hzxs
  have ht : valTie x.2.value z.2.value = false := by
    rw [valTie_symm]
    exact rest_not_tie hs z hz
  exact valLt_of_keyLe_of_not_tie hk ht

theorem run_better_rest {asc : Bool} {x : Nat × Row} {xs : List (Nat × Row)}
    (hs : (x :: xs).Pairwise (rowLe asc)) :
    ∀ p ∈ runOf x xs, ∀ z ∈ restOf x xs, valLt asc p.2.value z.2.value = true := by
  intro p hp z hz
  rw [valLt_congr_left (run_all_tie p hp) z.2.value]
  exact rest_better hs z hz

theorem valLt_some_left {asc : Bool} {x y : Option ℚ} (h : valLt asc x y = true) :
    ∃ a, x = some a := by
  cases x
  · simp [valLt] at h
  · exact ⟨_, rfl⟩

theorem valTie_some_right {w : Option ℚ} {a : ℚ} (h : valTie w (some a) = true) :
    w = some a := by
  cases w <;> simp [valTie] at h <;> simp [h]

theorem toFinset_card_eq_dedup_length (l : List (Option ℚ)) :
    l.toFinset.card = l.dedup.length := by
  rw [Finset.card, List.toFinset_val]
  exact Multiset.coe_card _

theorem dedup_length_append_const {l F : List (Option ℚ)} {v : Option ℚ}
    (hne : l ≠ []) (hall : ∀ w ∈ l, w = v) (hv : v ∉ F) :
    ((l ++ F).dedup).length = F.dedup.length + 1 := by
  rw [← toFinset_card_eq_dedup_length, ← toFinset_card_eq_dedup_length]
  have h2 : l.toFinset = {v} := by
    ext w
    simp only [List.mem_toFinset, Finset.mem_singleton]
    constructor
    · exact fun hw => hall w hw
    · rintro rfl
      match l, hne, hall with
      | a :: l', _, hall =>
        rw [← hall a (List.mem_cons_self a l')]
        exact List.mem_cons_self a l'
  have h1 : (l ++ F).toFinset = insert v F.toFinset := by
    rw [List.toFinset_append, h2, ← Finset.insert_eq]
  rw [h1, Finset.card_insert_of_not_mem (by simpa using hv)]

theorem run_tie_of_mem {x : Nat × Row} {xs : List (Nat × Row)} {i : Nat} {r : Row}
    (hmem : (i, r) ∈ runOf x xs) :
    ∀ p ∈ runOf x xs, valTie p.2.value r.value = true := by
  intro p hp
  have h1 : valTie p.2.value x.2.value = true := run_all_tie p hp
  have h2 : valTie x.2.value r.value = true := by
    rw [valTie_symm]
    exact run_all_tie _ hmem
  exact valTie_trans h1 h2

theorem cntBetter_run {asc : Bool} {x : Nat × Row} {xs : List (Nat × Row)}
    {i : Nat} {r : Row} (hsort : (x :: xs).Pairwise (rowLe asc))
    (hmem : (i, r) ∈ runOf x xs) :
    cntBetter asc (x :: xs) r.value = 0 := by
  rw [cntBetter, List.countP_eq_zero]
  intro p hp
  rw [← runOf_append_restOf x xs] at hp
  rcases List.mem_append.mp hp with hp | hp
  · rw [not_valLt_of_tie (run_tie_of_mem hmem p hp)]
    simp
  · rw [valLt_congr_right (run_all_tie _ hmem) p.2.value]
    rw [valLt_asymm (rest_better hsort p hp)]
    simp

theorem cntTie_run {asc : Bool} {x : Nat × Row} {xs : List (Nat × Row)}
    {i : Nat} {r : Row} (hsort : (x :: xs).Pairwise (rowLe asc))
    (hmem : (i, r) ∈ runOf x xs) :
    cntTie (x :: xs) r.value = (runOf x xs).length := by
  rw [cntTie, ← runOf_append_restOf x xs, List.countP_append]
  have h1 : (runOf x xs).countP (fun p => valTie p.2.value r.value) =
      (runOf x xs).length :=
    List.countP_eq_length.mpr (fun p hp => run_tie_of_mem hmem p hp)
  have h2 : (restOf x xs).countP (fun p => valTie p.2.value r.value) = 0 := by
    rw [List.countP_eq_zero]
    intro z hz hcontra
    have h3 : valTie z.2.value x.2.value = true :=
      valTie_trans hcontra (run_all_tie _ hmem)
    rw [rest_not_tie hsort z hz] at h3
    cases h3
  rw [h1, h2]
  omega

theorem cntTieBefore_run {asc : Bool} {x : Nat × Row} {xs : List (Nat × Row)}
    {i : Nat} {r : Row} (hsort : (x :: xs).Pairwise (rowLe asc))
    (hmem : (i, r) ∈ runOf x xs) :
    cntTieBefore (x :: xs) r.value i =
      (runOf x xs).countP (fun p => decide (p.1 < i)) := by
  rw [cntTieBefore, ← runOf_append_restOf x xs, List.countP_append]
  have h1 : (runOf x xs).countP
        (fun p => valTie p.2.value r.value && decide (p.1 < i)) =
      (runOf x xs).countP (fun p => decide (p.1 < i)) := by
    refine List.countP_congr ?_
    intro p hp
    rw [run_tie_of_mem hmem p hp]
    simp
  have h2 : (restOf x xs).countP
        (fun p => valTie p.2.value r.value && decide (p.1 < i)) = 0 := by
    rw [List.countP_eq_zero]
    intro z hz hcontra
    rw [Bool.and_eq_true] at hcontra
    have h3 : valTie z.2.value x.2.value = true :=
      valTie_trans hcontra.1 (run_all_tie _ hmem)
    rw [rest_not_tie hsort z hz] at h3
    cases h3
  rw [h1, h2]
  omega

theorem cntDenseBetter_run {asc : Bool} {x : Nat × Row} {xs : List (Nat × Row)}
    {i : Nat} {r : Row} (hsort : (x :: xs).Pairwise (rowLe asc))
    (hmem : (i, r) ∈ runOf x xs) :
    cntDenseBetter asc (x :: xs) r.value = 0 := by
  rw [cntDenseBetter]
  have hfil : (x :: xs).filter (fun p => valLt asc p.2.value r.value) = [] := by
    rw [List.filter_eq_nil_iff]
    intro p hp
    have h := cntBetter_run hsort hmem
    rw [cntBetter] at h
    exact List.countP_eq_zero.mp h p hp
  rw [hfil]
  rfl

theorem cntBetter_rest {asc : Bool} {x : Nat × Row} {xs : List (Nat × Row)}
    {i : Nat} {r : Row} (hsort : (x :: xs).Pairwise (rowLe asc))
    (hmem : (i, r) ∈ restOf x xs) :
    cntBetter asc (x :: xs) r.value =
      (runOf x xs).length + cntBetter asc (restOf x xs) r.value := by
  rw [cntBetter, ← runOf_append_restOf x xs, List.countP_append, cntBetter]
  congr 1
  exact List.countP_eq_length.mpr (fun p hp => run_better_rest hsort p hp _ hmem)

theorem cntTie_rest {asc : Bool} {x : Nat × Row} {xs : List (Nat × Row)}
    {i : Nat} {r : Row} (hsort : (x :: xs).Pairwise (rowLe asc))
    (hmem : (i, r) ∈ restOf x xs) :
    cntTie (x :: xs) r.value = cntTie (restOf x xs) r.value := by
  rw [cntTie, ← runOf_append_restOf x xs, List.countP_append, cntTie]
  have h1 : (runOf x xs).countP (fun p => valTie p.2.value r.value) = 0 := by
    rw [List.countP_eq_zero]
    intro p hp hcontra
    have hpx : valTie p.2.value x.2.value = true := run_all_tie p hp
    have hrp : valTie r.value p.2.value = true := by
      rw [valTie_symm]; exact hcontra
    have h3 : valTie r.value x.2.value = true := valTie_trans hrp hpx
    rw [rest_not_tie hsort _ hmem] at h3
    cases h3
  rw [h1, Nat.zero_add]

theorem cntTieBefore_rest {asc : Bool} {x : Nat × Row} {xs : List (Nat × Row)}
    {i : Nat} {r : Row} (hsort : (x :: xs).Pairwise (rowLe asc))
    (hmem : (i, r) ∈ restOf x xs) (k : Nat) :
    cntTieBefore (x :: xs) r.value k = cntTieBefore (restOf x xs) r.value k := by
  rw [cntTieBefore, ← runOf_append_restOf x xs, List.countP_append, cntTieBefore]
  have h1 : (runOf x xs).countP
        (fun p => valTie p.2.value r.value && decide (p.1 < k)) = 0 := by
    rw [List.countP_eq_zero]
    intro p hp hcontra
    rw [Bool.and_eq_true] at hcontra
    have hpx : valTie p.2.value x.2.value = true := run_all_tie p hp
    have hrp : valTie r.value p.2.value = true := by
      rw [valTie_symm]; exact hcontra.1
    have h3 : valTie r.value x.2.value = true := valTie_trans hrp hpx
    rw [rest_not_tie hsort _ hmem] at h3
    cases h3
  rw [h1, Nat.zero_add]

theorem cntDenseBetter_rest {asc : Bool} {x : Nat × Row} {xs : List (Nat × Row)}
    {i : Nat} {r : Row} (hsort : (x :: xs).Pairwise (rowLe asc))
    (hmem : (i, r) ∈ restOf x xs) :
    cntDenseBetter asc (x :: xs) r.value =
      cntDenseBetter asc (restOf x xs) r.value + 1 := by
  obtain ⟨a, hxa⟩ := valLt_some_left (rest_better hsort _ hmem)
  rw [cntDenseBetter, cntDenseBetter, ← runOf_append_restOf x xs, List.filter_append]
  have hrunfil : (runOf x xs).filter (fun p => valLt asc p.2.value r.value) =
      runOf x xs :=
    List.filter_eq_self.mpr (fun p hp => run_better_rest hsort p hp _ hmem)
  rw [hrunfil, List.map_append]
  refine dedup_length_append_const (v := some a) ?_ ?_ ?_
  · simp [runOf]
  · intro w hw
    rcases List.mem_map.mp hw with ⟨p, hp, rfl⟩
    have h3 : valTie p.2.value x.2.value = true := run_all_tie p hp
    rw [hxa] at h3
    exact valTie_some_right h3
  · intro hcontra
    rcases List.mem_map.mp hcontra with ⟨z, hz, hza⟩
    have hzrest : z ∈ restOf x xs := List.mem_of_mem_filter hz
    have h3 : valTie z.2.value x.2.value = true := by
      rw [hza, hxa]
      exact valTie_refl _
    rw [rest_not_tie hsort z hzrest] at h3
    cases h3

/-- Main invariant of the run-peeling pass: looking up a member `(i, r)` of
the sorted suffix `s` in the assignment list yields exactly the rank given by
counting over `s`, shifted by the number `c` of already peeled rows and the
number `j - 1` of already peeled tie runs. -/
theorem assignSortedF_lookup (asc : Bool) (m : TieMethod) :
    ∀ (fuel : Nat) (s : List (Nat × Row)) (c j : Nat),
      s.length ≤ fuel →
      s.Pairwise (rowLe asc) →
      (s.map Prod.fst).Nodup →
      s.Pairwise (fun p q => valTie p.2.value q.2.value = true → p.1 < q.1) →
      ∀ i r, (i, r) ∈ s →
        (assignSortedF m fuel c j s).lookup i =
          some (localRank asc m c j s i r.value) := by
  intro fuel
  induction fuel with
  | zero =>
    intro s c j hlen _ _ _ i r hmem
    rw [Nat.le_zero, List.length_eq_zero] at hlen
    subst hlen
    simp at hmem
  | succ fuel ih =>
    intro s c j hlen hsort hnd hincr i r hmem
    cases s with
    | nil => simp at hmem
    | cons x xs =>
      rw [← runOf_append_restOf x xs] at hmem
      have hstep : assignSortedF m (fuel + 1) c j (x :: xs) =
          runRanks m c j (runOf x xs) ++
            assignSortedF m fuel (c + (runOf x xs).length) (j + 1) (restOf x xs) :=
        rfl
      rw [hstep, List.lookup_append]
      rcases List.mem_append.mp hmem with hmr | hmr
      · -- the looked-up row belongs to the front tie run
        have hfst : i ∈ (runOf x xs).map Prod.fst :=
          List.mem_map_of_mem Prod.fst hmr
        cases m with
        | min =>
          simp only [runRanks]
          rw [lookup_map_const hfst, Option.or_some]
          simp only [localRank]
          rw [cntBetter_run hsort hmr]
          norm_num
        | max =>
          simp only [runRanks]
          rw [lookup_map_const hfst, Option.or_some]
          simp only [localRank]
          rw [cntBetter_run hsort hmr, cntTie_run hsort hmr]
          norm_num
        | average =>
          simp only [runRanks]
          rw [lookup_map_const hfst, Option.or_some]
          simp only [localRank]
          rw [cntBetter_run hsort hmr, cntTie_run hsort hmr]
          norm_num
        | dense =>
          simp only [runRanks]
          rw [lookup_map_const hfst, Option.or_some]
          simp only [localRank]
          rw [cntDenseBetter_run hsort hmr]
          norm_num
        | first =>
          have hrun_sub : List.Sublist (runOf x xs) (x :: xs) := by
            rw [runOf]
            exact List.Sublist.cons₂ x (List.takeWhile_sublist (tieWith x))
          have hrun_lt : (runOf x xs).Pairwise (fun p q => p.1 < q.1) := by
            refine List.Pairwise.imp_of_mem ?_ (List.Pairwise.sublist hrun_sub hincr)
            intro p q hp hq himp
            refine himp (valTie_trans (run_all_tie p hp) ?_)
            rw [valTie_symm]
            exact run_all_tie q hq
          simp only [runRanks]
          rw [firstRanks_lookup hmr hrun_lt c, Option.or_some]
          simp only [localRank]
          rw [cntBetter_run hsort hmr, cntTieBefore_run hsort hmr]
          norm_num
      · -- the looked-up row belongs to the remainder after the front run
        have hni : i ∉ (runRanks m c j (runOf x xs)).map Prod.fst := by
          rw [runRanks_map_fst]
          intro hcontra
          have hfsts : (x :: xs).map Prod.fst =
              (runOf x xs).map Prod.fst ++ (restOf x xs).map Prod.fst := by
            rw [← List.map_append, runOf_append_restOf]
          rw [hfsts] at hnd
          exact List.disjoint_of_nodup_append hnd hcontra
            (List.mem_map_of_mem Prod.fst hmr)
        rw [lookup_eq_none_of_not_mem_fst hni, Option.none_or]
        have hrest_sub : List.Sublist (restOf x xs) (x :: xs) := by
          rw [restOf]
          exact List.Sublist.cons x (List.dropWhile_sublist (tieWith x))
        have hlen' : (restOf x xs).length ≤ fuel := by
          have h := length_dropWhile_le (tieWith x) xs
          simp only [List.length_cons] at hlen
          rw [restOf]
          omega
        have hsort' := List.Pairwise.sublist hrest_sub hsort
        have hnd' : ((restOf x xs).map Prod.fst).Nodup :=
          List.Nodup.sublist (List.Sublist.map Prod.fst hrest_sub) hnd
        have hincr' := List.Pairwise.sublist hrest_sub hincr
        rw [ih (restOf x xs) (c + (runOf x xs).length) (j + 1) hlen' hsort' hnd'
          hincr' i r hmr]
        congr 1
        cases m with
        | min =>
          simp only [localRank]
          rw [cntBetter_rest hsort hmr]
          push_cast
          ring
        | max =>
          simp only [localRank]
          rw [cntBetter_rest hsort hmr, cntTie_rest hsort hmr]
          push_cast
          ring
        | average =>
          simp only [localRank]
          rw [cntBetter_rest hsort hmr, cntTie_rest hsort hmr]
          push_cast
          ring
        | first =>
          simp only [localRank]
          rw [cntBetter_rest hsort hmr, cntTieBefore_rest hsort hmr i]
          push_cast
          ring
        | dense =>
          simp only [localRank]
          rw [cntDenseBetter_rest hsort hmr]
          push_cast
          ring

theorem pair_sublist_of_pairwise_lt {l : List (Nat × Row)}
    (h : l.Pairwise (fun p q => p.1 < q.1)) {a b : Nat × Row}
    (ha : a ∈ l) (hb : b ∈ l) (hab : a.1 < b.1) :
    List.Sublist [a, b] l := by
  induction l with
  | nil => simp at ha
  | cons x xs ih =>
    rcases List.pairwise_cons.mp h with ⟨hx, hxs⟩
    rcases List.mem_cons.mp ha with rfl | ha'
    · rcases List.mem_cons.mp hb with rfl | hb'
      · omega
      · exact List.Sublist.cons₂ a (List.singleton_sublist.mpr hb')
    · rcases List.mem_cons.mp hb with rfl | hb'
      · have := hx a ha'
        omega
      · exact List.Sublist.cons x (ih hxs ha' hb')

theorem sublist_pair_antisymm {l : List (Nat × Row)} (hnd : l.Nodup)
    {a b : Nat × Row} (h1 : List.Sublist [a, b] l)
    (h2 : List.Sublist [b, a] l) : a = b := by
  induction l with
  | nil => exact absurd (List.Sublist.length_le h1) (by simp)
  | cons x xs ih =>
    rcases List.nodup_cons.mp hnd with ⟨hx, hxs⟩
    cases h1 with
    | cons _ h1' =>
      cases h2 with
      | cons _ h2' => exact ih hxs h1' h2'
      | cons₂ _ h2' =>
        exact absurd (List.Sublist.subset h1' (by simp)) hx
    | cons₂ _ h1' =>
      cases h2 with
      | cons _ h2' =>
        exact absurd (List.Sublist.subset h2' (by simp)) hx
      | cons₂ _ h2' => rfl

theorem groupOf_pairwise_fst (rows : List Row) (t : Int) :
    (groupOf rows t).Pairwise (fun p q => p.1 < q.1) := by
  refine List.Pairwise.filter _ ?_
  have h : (rows.enum.map Prod.fst).Pairwise (· < ·) := by
    rw [List.enum_map_fst]
    exact List.sorted_lt_range _
  exact (List.pairwise_map).mp h

theorem groupOf_nodup_fst (rows : List Row) (t : Int) :
    ((groupOf rows t).map Prod.fst).Nodup := by
  have h : ((groupOf rows t).map Prod.fst).Pairwise (· < ·) :=
    (List.pairwise_map).mpr (groupOf_pairwise_fst rows t)
  exact h.imp Nat.ne_of_lt

/-- Stability of the group sort: tied rows keep their original input order,
i.e. their original indices appear in increasing order in the sorted group. -/
theorem sorted_group_tie_incr (asc : Bool) (rows : List Row) (t : Int) :
    ((groupOf rows t).insertionSort (rowLe asc)).Pairwise
      (fun p q => valTie p.2.value q.2.value = true → p.1 < q.1) := by
  rw [List.pairwise_iff_forall_sublist]
  intro a b hab htie
  have hperm : List.Perm ((groupOf rows t).insertionSort (rowLe asc))
      (groupOf rows t) := List.perm_insertionSort _ _
  have hand : a ∈ groupOf rows t := hperm.subset (hab.subset (by simp))
  have hbnd : b ∈ groupOf rows t := hperm.subset (hab.subset (by simp))
  have hgnd : (groupOf rows t).Nodup :=
    List.Nodup.of_map Prod.fst (groupOf_nodup_fst rows t)
  have hsortnd : ((groupOf rows t).insertionSort (rowLe asc)).Nodup :=
    hperm.nodup_iff.mpr hgnd
  by_cases hab1 : a.1 < b.1
  · exact hab1
  · exfalso
    have hne : a ≠ b := by
      rintro rfl
      exact List.nodup_iff_sublist.mp hsortnd a hab
    have hfne : a.1 ≠ b.1 := by
      intro he
      exact hne (List.inj_on_of_nodup_map (groupOf_nodup_fst rows t) hand hbnd he)
    have hba : b.1 < a.1 := by omega
    have hsub : List.Sublist [b, a] (groupOf rows t) :=
      pair_sublist_of_pairwise_lt (groupOf_pairwise_fst rows t) hbnd hand hba
    have hpw : List.Pairwise (rowLe asc) [b, a] := by
      refine List.pairwise_cons.mpr ⟨?_, List.pairwise_singleton _ _⟩
      intro q hq
      rw [List.mem_singleton.mp hq]
      refine keyLe_of_tie ?_
      rw [valTie_symm]
      exact htie
    have hsub2 : List.Sublist [b, a] ((groupOf rows t).insertionSort (rowLe asc)) :=
      List.sublist_insertionSort hpw hsub
    exact hne (sublist_pair_antisymm hsortnd hab hsub2)

/-- Default row used only as the `getD` fallback; never actually selected in
the theorems below. -/
def defRow : Row := ⟨0, "", none⟩

theorem mem_groupOf_iff {rows : List Row} {t : Int} {i : Nat} {r : Row} :
    (i, r) ∈ groupOf rows t ↔ rows[i]? = some r ∧ r.time = t := by
  rw [groupOf, List.mem_filter]
  constructor
  · rintro ⟨hmem, ht⟩
    have h := List.mk_mem_enum_iff_getElem?.mp hmem
    exact ⟨h, by simpa using ht⟩
  · rintro ⟨hget, ht⟩
    exact ⟨List.mk_mem_enum_iff_getElem?.mpr hget, by simpa using ht⟩

theorem cntDenseBetter_perm {asc : Bool} {l l' : List (Nat × Row)}
    (h : List.Perm l l') (v : Option ℚ) :
    cntDenseBetter asc l v = cntDenseBetter asc l' v := by
  rw [cntDenseBetter, cntDenseBetter]
  exact ((( h.filter _).map _).dedup).length_eq

/-- At offsets `c = 0`, `j = 1` the local rank over the whole sorted group is
exactly the order-free rank characterisation over the group itself. -/
theorem localRank_zero_eq_rankOf (asc : Bool) (m : TieMethod)
    (g : List (Nat × Row)) (i : Nat) (v : Option ℚ) :
    localRank asc m 0 1 (g.insertionSort (rowLe asc)) i v = rankOf asc m g i v := by
  have hperm := List.perm_insertionSort (rowLe asc) g
  have hb : cntBetter asc (g.insertionSort (rowLe asc)) v = cntBetter asc g v :=
    hperm.countP_eq _
  have ht : cntTie (g.insertionSort (rowLe asc)) v = cntTie g v :=
    hperm.countP_eq _
  have htb : cntTieBefore (g.insertionSort (rowLe asc)) v i = cntTieBefore g v i :=
    hperm.countP_eq _
  have hd : cntDenseBetter asc (g.insertionSort (rowLe asc)) v = cntDenseBetter asc g v :=
    cntDenseBetter_perm hperm v
  cases m <;> simp only [localRank, rankOf, hb, ht, htb, hd, Nat.zero_add] <;> push_cast <;> ring

theorem groupAssignments_lookup (asc : Bool) (m : TieMethod) {rows : List Row}
    {t : Int} {i : Nat} {r : Row} (hmem : (i, r) ∈ groupOf rows t) :
    (groupAssignments asc m (groupOf rows t)).lookup i =
      some (rankOf asc m (groupOf rows t) i r.value) := by
  have hperm := List.perm_insertionSort (rowLe asc) (groupOf rows t)
  have hsorted := List.sorted_insertionSort (rowLe asc) (groupOf rows t)
  have hnd : (((groupOf rows t).insertionSort (rowLe asc)).map Prod.fst).Nodup :=
    (List.Perm.nodup_iff (List.Perm.map Prod.fst hperm)).mpr (groupOf_nodup_fst rows t)
  have hincr := sorted_group_tie_incr asc rows t
  have hmem' : (i, r) ∈ (groupOf rows t).insertionSort (rowLe asc) :=
    (List.mem_insertionSort _).mpr hmem
  simp only [groupAssignments]
  rw [assignSortedF_lookup asc m _ _ 0 1 (le_refl _) hsorted hnd hincr i r hmem']
  rw [localRank_zero_eq_rankOf asc m _ i r.value]

theorem mem_fst_groupAssignments {asc : Bool} {m : TieMethod}
    {g : List (Nat × Row)} {i : Nat}
    (h : i ∈ (groupAssignments asc m g).map Prod.fst) :
    ∃ r', (i, r') ∈ g := by
  simp only [groupAssignments] at h
  rw [assignSortedF_map_fst m _ _ _ _ (le_refl _)] at h
  rcases List.mem_map.mp h with ⟨p, hp, rfl⟩
  have hpg : p ∈ g := (List.mem_insertionSort _).mp hp
  exact ⟨p.2, by simpa using hpg⟩

theorem flatten_lookup_spec (rows : List Row) (asc : Bool) (m : TieMethod)
    (i : Nat) (r : Row) (hget : rows[i]? = some r) :
    ∀ ts : List Int, r.time ∈ ts →
      ((ts.map (fun t => groupAssignments asc m (groupOf rows t))).flatten).lookup i =
        some (rankOf asc m (groupOf rows r.time) i r.value) := by
  intro ts
  induction ts with
  | nil => simp
  | cons t ts ih =>
    intro hmem
    simp only [List.map_cons, List.flatten_cons, List.lookup_append]
    by_cases ht : t = r.time
    · subst ht
      rw [groupAssignments_lookup asc m (mem_groupOf_iff.mpr ⟨hget, rfl⟩),
        Option.or_some]
    · have hnone : (groupAssignments asc m (groupOf rows t)).lookup i = none := by
        apply lookup_eq_none_of_not_mem_fst
        intro hcontra
        obtain ⟨r', hr'⟩ := mem_fst_groupAssignments hcontra
        rcases mem_groupOf_iff.mp hr' with ⟨hget', ht'⟩
        rw [hget] at hget'
        cases hget'
        exact ht ht'.symm
      rw [hnone, Option.none_or]
      rcases List.mem_cons.mp hmem with heq | hmem'
      · exact absurd heq.symm ht
      · exact ih hmem'

theorem calculate_ranks_length (rows : List Row) (asc : Bool) (m : TieMethod) :
    (calculate_ranks rows asc m).length = rows.length := by
  simp [calculate_ranks]

/-- Scatter correctness: the rank at output position `i` of `calculate_ranks`
is exactly the order-free rank of the observation at input position `i`,
computed within its time-period group. -/
theorem calculate_ranks_spec (rows : List Row) (asc : Bool) (m : TieMethod)
    {i : Nat} {r : Row} (hget : rows[i]? = some r) :
    (calculate_ranks rows asc m).getD i 0 =
      rankOf asc m (groupOf rows r.time) i r.value := by
  have hi : i < rows.length := by
    rcases List.getElem?_eq_some_iff.mp hget with ⟨h, _⟩
    exact h
  have hrmem : r ∈ rows := by
    rcases List.getElem?_eq_some_iff.mp hget with ⟨h, he⟩
    exact he ▸ List.getElem_mem h
  have htmem : r.time ∈ (rows.map Row.time).dedup := by
    rw [List.mem_dedup]
    exact List.mem_map.mpr ⟨r, hrmem, rfl⟩
  simp only [calculate_ranks]
  rw [List.getD_eq_getElem?_getD]
  have hidx : (((List.range rows.length).map
      (fun k => ((((rows.map Row.time).dedup.map
        (fun t => groupAssignments asc m (groupOf rows t))).flatten).lookup k).getD 0)))[i]? =
      some (((((rows.map Row.time).dedup.map
        (fun t => groupAssignments asc m (groupOf rows t))).flatten).lookup i).getD 0) := by
    rw [List.getElem?_eq_getElem (by simpa using hi)]
    simp
  rw [hidx, Option.getD_some,
    flatten_lookup_spec rows asc m i r hget _ htmem, Option.getD_some]

theorem countP_add_countP_le {α : Type} {l : List α} {p q r : α → Bool}
    (hdisj : ∀ x ∈ l, ¬(p x = true ∧ q x = true))
    (hpr : ∀ x ∈ l, p x = true → r x = true)
    (hqr : ∀ x ∈ l, q x = true → r x = true) :
    l.countP p + l.countP q ≤ l.countP r := by
  induction l with
  | nil => simp
  | cons x xs ih =>
    have ih' := ih (fun y hy => hdisj y (List.mem_cons_of_mem _ hy))
      (fun y hy => hpr y (List.mem_cons_of_mem _ hy))
      (fun y hy => hqr y (List.mem_cons_of_mem _ hy))
    rw [List.countP_cons, List.countP_cons, List.countP_cons]
    by_cases hp : p x = true <;> by_cases hq : q x = true
    · exact absurd ⟨hp, hq⟩ (hdisj x (List.mem_cons_self _ _))
    · have hr := hpr x (List.mem_cons_self _ _) hp
      simp [hp, hq, hr]
      omega
    · have hr := hqr x (List.mem_cons_self _ _) hq
      simp [hp, hq, hr]
      omega
    · by_cases hr : r x = true <;> simp [hp, hq, hr] <;> omega

theorem countP_lt_countP {α : Type} {l : List α} {p q : α → Bool}
    (himp : ∀ x ∈ l, p x = true → q x = true)
    {x : α} (hx : x ∈ l) (hqx : q x = true) (hpx : p x = false) :
    l.countP p < l.countP q := by
  induction l with
  | nil => simp at hx
  | cons y ys ih =>
    rw [List.countP_cons, List.countP_cons]
    have hmono : ys.countP p ≤ ys.countP q :=
      List.countP_mono_left (fun z hz => himp z (List.mem_cons_of_mem _ hz))
    rcases List.mem_cons.mp hx with rfl | hx'
    · simp [hpx, hqx]
      omega
    · have ih' := ih (fun z hz => himp z (List.mem_cons_of_mem _ hz)) hx'
      by_cases hp : p y = true
      · have hq := himp y (List.mem_cons_self _ _) hp
        simp [hp, hq]
        omega
      · by_cases hq : q y = true <;> simp [hp, hq] <;> omega

/-- The rank of an absent-value group member is strictly larger (worse) than
the rank of every present-value member of the same group, for every direction
and every tie method. -/
theorem rankOf_absent_gt {asc : Bool} {m : TieMethod} {g : List (Nat × Row)}
    {i j : Nat} {ri rj : Row} (hmi : (i, ri) ∈ g) (hmj : (j, rj) ∈ g)
    (hvi : ri.value = none) {q : ℚ} (hvj : rj.value = some q) :
    rankOf asc m g j rj.value < rankOf asc m g i ri.value := by
  rw [hvi, hvj]
  have hb_i : cntBetter asc g none = g.countP (fun p => (p.2.value).isSome) := by
    refine List.countP_congr ?_
    intro p _
    rw [valLt_none_right]
  have ht_i : cntTie g none = g.countP (fun p => (p.2.value).isNone) := by
    refine List.countP_congr ?_
    intro p _
    rw [valTie_none_right]
  have ha_pos : 1 ≤ g.countP (fun p => (p.2.value).isNone) := by
    refine List.countP_pos_iff.mpr ⟨(i, ri), hmi, ?_⟩
    simp [hvi]
  have hbt_j : cntBetter asc g (some q) + cntTie g (some q) ≤
      g.countP (fun p => (p.2.value).isSome) := by
    refine countP_add_countP_le ?_ ?_ ?_
    · intro p _ ⟨hlt, htie⟩
      rw [not_valLt_of_tie htie] at hlt
      cases hlt
    · intro p _ hlt
      rcases valLt_some_left hlt with ⟨a, ha⟩
      simp [ha]
    · intro p _ htie
      rw [valTie_some_right htie]
      rfl
  have ht_j_pos : 1 ≤ cntTie g (some q) := by
    refine List.countP_pos_iff.mpr ⟨(j, rj), hmj, ?_⟩
    simp only [hvj]
    exact valTie_refl _
  have htb_j : cntTieBefore g (some q) j + 1 ≤ cntTie g (some q) := by
    refine countP_lt_countP ?_ hmj ?_ ?_
    · intro p _ hand
      rw [Bool.and_eq_true] at hand
      exact hand.1
    · simp only [hvj]
      exact valTie_refl _
    · simp only [hvj, valTie_refl, Bool.true_and]
      simp
  have hd_lt : cntDenseBetter asc g (some q) < cntDenseBetter asc g none := by
    rw [cntDenseBetter, cntDenseBetter, ← toFinset_card_eq_dedup_length,
      ← toFinset_card_eq_dedup_length]
    refine Finset.card_lt_card ?_
    rw [Finset.ssubset_iff_of_subset ?hsub]
    case hsub =>
      intro w hw
      rcases List.mem_map.mp (List.mem_toFinset.mp hw) with ⟨p, hp, rfl⟩
      have hpg := List.mem_of_mem_filter hp
      have hlt : valLt asc p.2.value (some q) = true := (List.mem_filter.mp hp).2
      rcases valLt_some_left hlt with ⟨a, ha⟩
      refine List.mem_toFinset.mpr (List.mem_map.mpr ⟨p, ?_, rfl⟩)
      refine List.mem_filter.mpr ⟨hpg, ?_⟩
      rw [valLt_none_right, ha]
      rfl
    refine ⟨some q, ?_, ?_⟩
    · refine List.mem_toFinset.mpr (List.mem_map.mpr ⟨(j, rj), ?_, hvj⟩)
      refine List.mem_filter.mpr ⟨hmj, ?_⟩
      rw [valLt_none_right, hvj]
      rfl
    · intro hcontra
      rcases List.mem_map.mp (List.mem_toFinset.mp hcontra) with ⟨p, hp, hval⟩
      have hlt : valLt asc p.2.value (some q) = true := (List.mem_filter.mp hp).2
      rw [hval, valLt_irrefl] at hlt
      cases hlt
  have hk1 : (cntBetter asc g (some q) : ℚ) + cntTie g (some q) ≤
      (g.countP (fun p => (p.2.value).isSome) : ℚ) := by
    exact_mod_cast hbt_j
  have hk2 : (1 : ℚ) ≤ (cntTie g (some q) : ℚ) := by exact_mod_cast ht_j_pos
  have hk3 : (1 : ℚ) ≤ (g.countP (fun p => (p.2.value).isNone) : ℚ) := by
    exact_mod_cast ha_pos
  have hk4 : (cntTieBefore g (some q) j : ℚ) + 1 ≤ (cntTie g (some q) : ℚ) := by
    exact_mod_cast htb_j
  have hk5 : (cntDenseBetter asc g (some q) : ℚ) + 1 ≤
      (cntDenseBetter asc g none : ℚ) := by
    exact_mod_cast hd_lt
  have hk6 : (0 : ℚ) ≤ (cntTieBefore g none i : ℚ) := by positivity
  cases m <;> simp only [rankOf, hb_i, ht_i] <;> linarith

theorem countP_eq_one_unique {α : Type} [DecidableEq α] {l : List α}
    (hnd : l.Nodup) {x : α} (hx : x ∈ l) :
    l.countP (fun y => decide (y = x)) = 1 := by
  induction l with
  | nil => simp at hx
  | cons y ys ih =>
    rcases List.nodup_cons.mp hnd with ⟨hy, hys⟩
    rw [List.countP_cons]
    rcases List.mem_cons.mp hx with rfl | hx'
    · have h0 : ys.countP (fun z => decide (z = x)) = 0 := by
        rw [List.countP_eq_zero]
        intro z hz hc
        rw [decide_eq_true_eq] at hc
        exact hy (hc ▸ hz)
      simp [h0]
    · have hne : y ≠ x := fun he => hy (he ▸ hx')
      rw [ih hys hx']
      simp [hne]

/-- When no two distinct members of a group tie, all five tie methods assign
the same rank to every member, namely the plain competition rank
`cntBetter + 1`. -/
theorem rankOf_eq_of_no_ties {asc : Bool} {g : List (Nat × Row)}
    (hnd : g.Nodup)
    (h : g.Pairwise (fun p q => valTie p.2.value q.2.value = false))
    {i : Nat} {r : Row} (hmem : (i, r) ∈ g) (m : TieMethod) :
    rankOf asc m g i r.value = (cntBetter asc g r.value : ℚ) + 1 := by
  have hsym : Symmetric (fun p q : Nat × Row => valTie p.2.value q.2.value = false) := by
    intro a b hab
    rw [valTie_symm]
    exact hab
  have huniq : ∀ p ∈ g, valTie p.2.value r.value = true → p = (i, r) := by
    intro p hp htie
    by_contra hne
    have hfalse := List.Pairwise.forall hsym h hp hmem hne
    rw [hfalse] at htie
    cases htie
  have ht1 : cntTie g r.value = 1 := by
    rw [cntTie]
    have hcongr : g.countP (fun p => valTie p.2.value r.value) =
        g.countP (fun p => decide (p = (i, r))) := by
      refine List.countP_congr ?_
      intro p hp
      simp only [decide_eq_true_eq]
      constructor
      · exact huniq p hp
      · rintro rfl
        exact valTie_refl _
    rw [hcongr, countP_eq_one_unique hnd hmem]
  have htb0 : cntTieBefore g r.value i = 0 := by
    rw [cntTieBefore, List.countP_eq_zero]
    intro p hp hc
    rw [Bool.and_eq_true] at hc
    have := huniq p hp hc.1
    subst this
    simp at hc
  have hdense : cntDenseBetter asc g r.value = cntBetter asc g r.value := by
    have hfil_pw := List.Pairwise.filter
      (fun p => valLt asc p.2.value r.value) h
    have hmapnd : ((g.filter (fun p => valLt asc p.2.value r.value)).map
        (fun p => p.2.value)).Nodup := by
      refine (List.pairwise_map).mpr ?_
      refine hfil_pw.imp ?_
      intro a b hab he
      rw [he, valTie_refl] at hab
      cases hab
    rw [cntDenseBetter, List.dedup_eq_self.mpr hmapnd, List.length_map,
      cntBetter, List.countP_eq_length_filter]
  cases m <;> simp only [rankOf, ht1, htb0, hdense] <;> push_cast <;> ring

theorem group_no_ties_of_rows {rows : List Row}
    (h : rows.Pairwise (fun r r' => r.time = r'.time → valTie r.value r'.value = false))
    (t : Int) :
    (groupOf rows t).Pairwise (fun p q => valTie p.2.value q.2.value = false) := by
  have henum : rows.enum.Pairwise
      (fun p q : Nat × Row => p.2.time = q.2.time → valTie p.2.value q.2.value = false) := by
    have h2 : (rows.enum.map Prod.snd).Pairwise
        (fun r r' => r.time = r'.time → valTie r.value r'.value = false) := by
      rw [List.enum_map_snd]
      exact h
    exact (List.pairwise_map).mp h2
  have hfil := List.Pairwise.filter (fun p => decide (p.2.time = t)) henum
  refine List.Pairwise.imp_of_mem ?_ hfil
  intro p q hp hq himp
  have hpt : p.2.time = t := by simpa using (List.mem_filter.mp hp).2
  have hqt : q.2.time = t := by simpa using (List.mem_filter.mp hq).2
  exact himp (hpt.trans hqt.symm)

/-- C6 (confirmed): for every input, both directions and every tie method, an
observation with an absent value receives a strictly worse (larger) rank than
every observation with a present value in the same time-period group: absent
values are always placed last, independent of direction. -/
theorem C6_absent_placed_last (rows : List Row) (asc : Bool) (m : TieMethod)
    {i j : Nat} {ri rj : Row} {q : ℚ}
    (hi : rows[i]? = some ri) (hj : rows[j]? = some rj)
    (htime : ri.time = rj.time) (hvi : ri.value = none) (hvj : rj.value = some q) :
    (calculate_ranks rows asc m).getD j 0 < (calculate_ranks rows asc m).getD i 0 := by
  rw [calculate_ranks_spec rows asc m hi, calculate_ranks_spec rows asc m hj]
  have hmi : (i, ri) ∈ groupOf rows rj.time := mem_groupOf_iff.mpr ⟨hi, htime⟩
  have hmj : (j, rj) ∈ groupOf rows rj.time := mem_groupOf_iff.mpr ⟨hj, rfl⟩
  rw [htime]
  exact rankOf_absent_gt hmi hmj hvi hvj

theorem C6_absent_placed_last_witness :
    (calculate_ranks [⟨0, "A", some 100⟩, ⟨0, "B", none⟩, ⟨0, "C", some 80⟩]
        false .average).getD 0 0 <
      (calculate_ranks [⟨0, "A", some 100⟩, ⟨0, "B", none⟩, ⟨0, "C", some 80⟩]
        false .average).getD 1 0 :=
  C6_absent_placed_last [⟨0, "A", some 100⟩, ⟨0, "B", none⟩, ⟨0, "C", some 80⟩]
    false .average (i := 1) (j := 0) rfl rfl rfl rfl rfl

/-- C8 (confirmed): the rank series returned by `calculate_ranks` is aligned
to the original input row order: it has one rank per input row, and the rank
at output position `i` is the rank of the observation at input position `i`
within its time-period group (given by the order-free characterisation
`rankOf`), regardless of the internal per-group sorting. -/
theorem C8_order_preservation (rows : List Row) (asc : Bool) (m : TieMethod) :
    (calculate_ranks rows asc m).length = rows.length ∧
      ∀ (i : Nat) (r : Row), rows[i]? = some r →
        (calculate_ranks rows asc m).getD i 0 =
          rankOf asc m (groupOf rows r.time) i r.value :=
  ⟨calculate_ranks_length rows asc m,
   fun _ r hget => calculate_ranks_spec rows asc m hget⟩

theorem C8_order_preservation_witness :
    (calculate_ranks [⟨0, "A", some 100⟩, ⟨0, "B", some 80⟩, ⟨0, "C", some 90⟩]
        false .average).length = 3 ∧
      (calculate_ranks [⟨0, "A", some 100⟩, ⟨0, "B", some 80⟩, ⟨0, "C", some 90⟩]
          false .average).getD 1 0 =
        rankOf false .average
          (groupOf [⟨0, "A", some 100⟩, ⟨0, "B", some 80⟩, ⟨0, "C", some 90⟩] 0)
          1 (some 80) :=
  ⟨(C8_order_preservation [⟨0, "A", some 100⟩, ⟨0, "B", some 80⟩,
      ⟨0, "C", some 90⟩] false .average).1,
   (C8_order_preservation [⟨0, "A", some 100⟩, ⟨0, "B", some 80⟩,
      ⟨0, "C", some 90⟩] false .average).2 1 ⟨0, "B", some 80⟩ rfl⟩

/-- C9 (counterexample): the claim fails as stated.  In the input below no
two present values in the group are equal (only one value is present at all),
yet the `min` and `max` tie methods disagree: the two absent-value rows form
a tie group at the bottom, ranked `2, 2` by `min` but `3, 3` by `max`. -/
theorem C9_counterexample :
    ([⟨0, "A", some 1⟩, ⟨0, "B", none⟩, ⟨0, "C", none⟩] : List Row).Pairwise
        (fun r r' => r.time = r'.time → r.value.isSome = true → r.value ≠ r'.value)
      ∧ calculate_ranks [⟨0, "A", some 1⟩, ⟨0, "B", none⟩, ⟨0, "C", none⟩]
          true .min ≠
        calculate_ranks [⟨0, "A", some 1⟩, ⟨0, "B", none⟩, ⟨0, "C", none⟩]
          true .max := by
  refine ⟨by decide, ?_⟩
  intro he
  have h1 : (calculate_ranks [⟨0, "A", some 1⟩, ⟨0, "B", none⟩, ⟨0, "C", none⟩]
      true .min).getD 1 0 = 2 := by
    rw [calculate_ranks_spec _ _ _
      (show ([⟨0, "A", some 1⟩, ⟨0, "B", none⟩, ⟨0, "C", none⟩] :
        List Row)[1]? = some ⟨0, "B", none⟩ from rfl)]
    have hb : cntBetter true
        (groupOf [⟨0, "A", some 1⟩, ⟨0, "B", none⟩, ⟨0, "C", none⟩] 0) none = 1 := by
      decide
    simp only [rankOf, hb]
    norm_num
  have h2 : (calculate_ranks [⟨0, "A", some 1⟩, ⟨0, "B", none⟩, ⟨0, "C", none⟩]
      true .max).getD 1 0 = 3 := by
    rw [calculate_ranks_spec _ _ _
      (show ([⟨0, "A", some 1⟩, ⟨0, "B", none⟩, ⟨0, "C", none⟩] :
        List Row)[1]? = some ⟨0, "B", none⟩ from rfl)]
    have hb : cntBetter true
        (groupOf [⟨0, "A", some 1⟩, ⟨0, "B", none⟩, ⟨0, "C", none⟩] 0) none = 1 := by
      decide
    have ht : cntTie
        (groupOf [⟨0, "A", some 1⟩, ⟨0, "B", none⟩, ⟨0, "C", none⟩] 0) none = 2 := by
      decide
    simp only [rankOf, hb, ht]
    norm_num
  rw [he] at h1
  rw [h1] at h2
  norm_num at h2

/-- C9 (amended): all five tie methods produce identical rank outputs
whenever no two rows of the same time period tie at all — that is, no two
present values in a group are equal AND each group contains at most one
absent value.  (The amendment adds the absent-value condition: two absent
values tie with each other and are ranked differently by different
methods.) -/
theorem C9_tie_method_equiv (rows : List Row) (asc : Bool)
    (h : rows.Pairwise
      (fun r r' => r.time = r'.time → valTie r.value r'.value = false))
    (m₁ m₂ : TieMethod) :
    calculate_ranks rows asc m₁ = calculate_ranks rows asc m₂ := by
  refine List.ext_getElem ?_ ?_
  · rw [calculate_ranks_length, calculate_ranks_length]
  · intro n h1 h2
    have hn : n < rows.length := by rwa [calculate_ranks_length] at h1
    have hget : rows[n]? = some (rows.get ⟨n, hn⟩) := by
      rw [List.getElem?_eq_getElem hn]
      simp
    have g1 : (calculate_ranks rows asc m₁).getD n 0 =
        (calculate_ranks rows asc m₁)[n] := by
      rw [List.getD_eq_getElem?_getD, List.getElem?_eq_getElem h1]
      simp
    have g2 : (calculate_ranks rows asc m₂).getD n 0 =
        (calculate_ranks rows asc m₂)[n] := by
      rw [List.getD_eq_getElem?_getD, List.getElem?_eq_getElem h2]
      simp
    rw [← g1, ← g2,
      calculate_ranks_spec rows asc m₁ hget, calculate_ranks_spec rows asc m₂ hget]
    have hgnd : (groupOf rows (rows.get ⟨n, hn⟩).time).Nodup :=
      List.Nodup.of_map Prod.fst (groupOf_nodup_fst rows _)
    have hgpw := group_no_ties_of_rows h (rows.get ⟨n, hn⟩).time
    have hmem : (n, rows.get ⟨n, hn⟩) ∈ groupOf rows (rows.get ⟨n, hn⟩).time :=
      mem_groupOf_iff.mpr ⟨hget, rfl⟩
    rw [rankOf_eq_of_no_ties hgnd hgpw hmem m₁,
      rankOf_eq_of_no_ties hgnd hgpw hmem m₂]

theorem C9_tie_method_equiv_witness :
    calculate_ranks [⟨0, "A", some 100⟩, ⟨0, "B", some 80⟩, ⟨0, "C", none⟩]
        false .average =
      calculate_ranks [⟨0, "A", some 100⟩, ⟨0, "B", some 80⟩, ⟨0, "C", none⟩]
        false .dense :=
  C9_tie_method_equiv [⟨0, "A", some 100⟩, ⟨0, "B", some 80⟩, ⟨0, "C", none⟩]
    false (by decide) .average .dense

/-! ### `prepare_data` (data.py 64-133, value-column path) and
`_validate_ranks` (data.py 187-219) -/

/-- The lexicographic (time, entity) order used by prepare_data's final
`result.sort_values([time_col, entity_col])` (stable sort). -/
def prepLe (a b : Row × ℚ) : Prop :=
  a.1.time < b.1.time ∨ (a.1.time = b.1.time ∧ a.1.entity ≤ b.1.entity)

instance : DecidableRel prepLe := fun _ _ =>
  inferInstanceAs (Decidable (_ ∨ _))

/-- `_validate_ranks(df, time_col, entity_col)` (data.py 187-219) on the
typed model: the `_rank` column is a list of optional rationals (`none` =
NaN) and `keys` are the (time, entity) pairs of the rows, in row order.  The
three checks run in source order: all ranks NaN, any negative rank among the
non-NaN ones, duplicate (time, entity) combinations. -/
def validate_ranks (keys : List (Int × String)) (rankCol : List (Option ℚ)) :
    Except ChartError Unit :=
  if rankCol.all (fun r => r.isNone) then
    .error (.invalidInput ("All rank values are NaN"))
  else if (rankCol.filterMap id).any (fun r => decide (r < 0)) then
    .error (.invalidInput ("Rank values must be non-negative"))
  else if ¬ keys.Nodup then
    .error (.duplicateKey ("Duplicate entity-time combinations found"))
  else
    .ok ()

/-- `prepare_data(df, time_col, entity_col, value_col=..., ascending=...,
tie_method=...)` (data.py 64-133), the value-column path (`rank_col=None`).
In the typed model the column-existence checks of `validate_dataframe`
always pass; the empty-input check, the rank computation, `_validate_ranks`
and the final stable sort by (time, entity) are mirrored in source order.
The `_rank` column handed to `_validate_ranks` is the `calculate_ranks`
output, whose entries are all real numbers (`some`). -/
def prepare_data (rows : List Row) (asc : Bool) (m : TieMethod) :
    Except ChartError (List (Row × ℚ)) :=
  if rows.isEmpty then .error (.invalidInput ("DataFrame is empty"))
  else
    let ranks := calculate_ranks rows asc m
    match validate_ranks (rows.map (fun r => (r.time, r.entity)))
        (ranks.map some) with
    | .error e => .error e
    | .ok _ => .ok ((rows.zip ranks).insertionSort prepLe)

theorem firstRanks_snd_ge_one : ∀ (c : Nat) (ps : List (Nat × Row)),
    ∀ p ∈ firstRanks c ps, 1 ≤ p.2 := by
  intro c ps
  induction ps generalizing c with
  | nil => intro p hp; simp [firstRanks] at hp
  | cons y ys ih =>
    intro p hp
    rcases List.mem_cons.mp hp with rfl | hp'
    · have hc : (0 : ℚ) ≤ c := Nat.cast_nonneg c
      simp only
      linarith
    · exact ih (c + 1) p hp'

theorem runRanks_snd_ge_one (m : TieMethod) (c j : Nat) (run : List (Nat × Row))
    (hj : 1 ≤ j) (hrun : run ≠ []) :
    ∀ p ∈ runRanks m c j run, 1 ≤ p.2 := by
  intro p hp
  have hc : (0 : ℚ) ≤ c := Nat.cast_nonneg c
  have hlen : (1 : ℚ) ≤ (run.length : ℚ) := by
    have h1 : 1 ≤ run.length := List.length_pos.mpr hrun
    exact_mod_cast h1
  have hjq : (1 : ℚ) ≤ (j : ℚ) := by exact_mod_cast hj
  cases m with
  | first => exact firstRanks_snd_ge_one c run p hp
  | min =>
    rcases List.mem_map.mp hp with ⟨q, _, rfl⟩
    simp only
    linarith
  | max =>
    rcases List.mem_map.mp hp with ⟨q, _, rfl⟩
    simp only
    linarith
  | average =>
    rcases List.mem_map.mp hp with ⟨q, _, rfl⟩
    simp only
    linarith
  | dense =>
    rcases List.mem_map.mp hp with ⟨q, _, rfl⟩
    simp only
    linarith

theorem assignSortedF_snd_ge_one (m : TieMethod) :
    ∀ (fuel c j : Nat), 1 ≤ j → ∀ (s : List (Nat × Row)),
      ∀ p ∈ assignSortedF m fuel c j s, 1 ≤ p.2 := by
  intro fuel
  induction fuel with
  | zero => intro c j _ s p hp; simp [assignSortedF] at hp
  | succ fuel ih =>
    intro c j hj s p hp
    cases s with
    | nil => simp [assignSortedF] at hp
    | cons x xs =>
      simp only [assignSortedF] at hp
      rcases List.mem_append.mp hp with hp' | hp'
      · exact runRanks_snd_ge_one m c j _ hj (by simp [runOf]) p hp'
      · exact ih (c + (runOf x xs).length) (j + 1) (by omega) (restOf x xs) p hp'

theorem mem_of_lookup_eq_some {l : List (Nat × ℚ)} {k : Nat} {v : ℚ}
    (h : l.lookup k = some v) : (k, v) ∈ l := by
  rcases List.lookup_eq_some_iff.mp h with ⟨l₁, l₂, rfl, _⟩
  exact List.mem_append.mpr (Or.inr (List.mem_cons_self _ _))

/-- Every rank produced by `calculate_ranks` is non-negative (in fact at
least 1 whenever it comes from an assignment). -/
theorem calculate_ranks_nonneg (rows : List Row) (asc : Bool) (m : TieMethod) :
    ∀ q ∈ calculate_ranks rows asc m, 0 ≤ q := by
  intro q hq
  simp only [calculate_ranks] at hq
  rcases List.mem_map.mp hq with ⟨k, _hk, rfl⟩
  cases hl : (((rows.map Row.time).dedup.map
      (fun t => groupAssignments asc m (groupOf rows t))).flatten).lookup k with
  | none => simp [hl]
  | some v =>
    simp only [hl, Option.getD_some]
    have hmem := mem_of_lookup_eq_some hl
    rcases List.mem_flatten.mp hmem with ⟨chunk, hchunk, hvc⟩
    rcases List.mem_map.mp hchunk with ⟨t, _, rfl⟩
    have h1 : (1 : ℚ) ≤ (k, v).2 := by
      refine assignSortedF_snd_ge_one m
        ((groupOf rows t).insertionSort (rowLe asc)).length 0 1 (le_refl 1)
        ((groupOf rows t).insertionSort (rowLe asc)) (k, v) ?_
      simpa [groupAssignments] using hvc
    simp only at h1
    linarith

theorem prepare_data_empty (asc : Bool) (m : TieMethod) :
    prepare_data [] asc m = .error (.invalidInput ("DataFrame is empty")) := rfl

theorem validate_ranks_checks (rows : List Row) (asc : Bool) (m : TieMethod)
    (hne : rows ≠ []) :
    ((calculate_ranks rows asc m).map some).all (fun r => r.isNone) = false ∧
      ¬ ∃ x ∈ calculate_ranks rows asc m, x < 0 := by
  constructor
  · rw [List.all_eq_false]
    have hlen : calculate_ranks rows asc m ≠ [] := by
      intro h
      have hl := calculate_ranks_length rows asc m
      rw [h] at hl
      exact hne (List.length_eq_zero.mp hl.symm)
    cases hr : calculate_ranks rows asc m with
    | nil => exact absurd hr hlen
    | cons y ys => exact ⟨some y, by simp⟩
  · rintro ⟨x, hx, hlt⟩
    exact absurd hlt (not_lt.mpr (calculate_ranks_nonneg rows asc m x hx))

theorem prepare_data_dup_error (rows : List Row) (asc : Bool) (m : TieMethod)
    (hne : rows ≠ [])
    (hdup : ¬ (rows.map (fun r => (r.time, r.entity))).Nodup) :
    prepare_data rows asc m =
      .error (.duplicateKey ("Duplicate entity-time combinations found")) := by
  have hempty : rows.isEmpty = false := by
    cases rows
    · exact absurd rfl hne
    · rfl
  rcases validate_ranks_checks rows asc m hne with ⟨hall, hneg⟩
  simp [prepare_data, hempty, validate_ranks, hall, hneg, hdup]

theorem prepare_data_ok_of_nodup (rows : List Row) (asc : Bool) (m : TieMethod)
    (hne : rows ≠ [])
    (hnd : (rows.map (fun r => (r.time, r.entity))).Nodup) :
    ∃ out, prepare_data rows asc m = .ok out := by
  have hempty : rows.isEmpty = false := by
    cases rows
    · exact absurd rfl hne
    · rfl
  rcases validate_ranks_checks rows asc m hne with ⟨hall, hneg⟩
  refine ⟨(rows.zip (calculate_ranks rows asc m)).insertionSort prepLe, ?_⟩
  simp [prepare_data, hempty, validate_ranks, hall, hneg, hnd]

/-- C7 (confirmed): on a non-empty input, rank derivation through
`prepare_data` with a value column fails with the `DuplicateKey` error
whenever two observations share an identical (time, entity) pair, and
succeeds (no error at all) whenever all (time, entity) pairs are distinct. -/
theorem C7_duplicate_key (rows : List Row) (asc : Bool) (m : TieMethod)
    (hne : rows ≠ []) :
    (¬ (rows.map (fun r => (r.time, r.entity))).Nodup →
        prepare_data rows asc m =
          .error (.duplicateKey ("Duplicate entity-time combinations found")))
      ∧ ((rows.map (fun r => (r.time, r.entity))).Nodup →
          ∃ out, prepare_data rows asc m = .ok out) :=
  ⟨prepare_data_dup_error rows asc m hne, prepare_data_ok_of_nodup rows asc m hne⟩

theorem C7_duplicate_key_witness :
    prepare_data [⟨0, "A", some 1⟩, ⟨0, "A", some 2⟩] true .average =
        .error (.duplicateKey ("Duplicate entity-time combinations found"))
      ∧ ∃ out, prepare_data [⟨0, "A", some 1⟩, ⟨0, "B", some 2⟩] true .average =
          .ok out :=
  ⟨(C7_duplicate_key [⟨0, "A", some 1⟩, ⟨0, "A", some 2⟩] true .average
      (by simp)).1 (by decide),
   (C7_duplicate_key [⟨0, "A", some 1⟩, ⟨0, "B", some 2⟩] true .average
      (by simp)).2 (by decide)⟩

/-- C2 (counterexample): contrary to the claim, a non-empty input in which
every observation's value is absent does not make `prepare_data` with a value
column raise.  pandas' `rank(na_option="bottom")` assigns real (bottom) ranks
to NaN values, so the `_rank` column contains no NaN and the all-NaN check of
`_validate_ranks` never fires on this path: the call returns ranks. -/
theorem C2_counterexample :
    ([⟨0, "A", none⟩, ⟨0, "B", none⟩] : List Row) ≠ []
      ∧ (∀ r ∈ ([⟨0, "A", none⟩, ⟨0, "B", none⟩] : List Row), r.value = none)
      ∧ ∃ out, prepare_data [⟨0, "A", none⟩, ⟨0, "B", none⟩] true .average =
          .ok out :=
  ⟨by simp, by decide,
   prepare_data_ok_of_nodup [⟨0, "A", none⟩, ⟨0, "B", none⟩] true .average
     (by simp) (by decide)⟩

/-- C2 (amended): rank derivation fails with `InvalidInput` when the
observation collection is empty; but a non-empty input whose values are all
absent does not raise — with distinct (time, entity) pairs, `prepare_data`
with a value column returns ranks (the absent values are ranked at the
bottom) instead of failing. -/
theorem C2_empty_rejected_all_absent_ok (rows : List Row) (asc : Bool)
    (m : TieMethod) :
    (rows = [] →
        prepare_data rows asc m = .error (.invalidInput ("DataFrame is empty")))
      ∧ (rows ≠ [] → (∀ r ∈ rows, r.value = none) →
          (rows.map (fun r => (r.time, r.entity))).Nodup →
          ∃ out, prepare_data rows asc m = .ok out) :=
  ⟨fun h => h ▸ prepare_data_empty asc m,
   fun hne _ hnd => prepare_data_ok_of_nodup rows asc m hne hnd⟩

theorem C2_empty_rejected_all_absent_ok_witness :
    prepare_data ([] : List Row) true .average =
        .error (.invalidInput ("DataFrame is empty"))
      ∧ ∃ out, prepare_data [⟨0, "A", none⟩, ⟨1, "A", none⟩] true .average =
          .ok out :=
  ⟨(C2_empty_rejected_all_absent_ok [] true .average).1 rfl,
   (C2_empty_rejected_all_absent_ok [⟨0, "A", none⟩, ⟨1, "A", none⟩] true
      .average).2 (by simp) (by decide) (by decide)⟩
